import Mathlib

/-!
Verification of the dynalist CLI core against its design description.

The Python source (src/dynalist/cli.py) is shallowly embedded below:

* the reconciliation block of `status` (lines 491-523) becomes `status`
  over insertion-ordered association lists;
* the OPML serializer `_write_node` becomes `nodeParts` / `write_node`;
* the tree builder `_build_item_tree` becomes `create_node` /
  `build_item_tree` (with a fuel parameter standing for the call stack,
  since the Python recursion is unbounded on cyclic data);
* the batching loop of `export_folder` becomes `schedule` / `exportFolder`.

Dictionaries are modelled as association lists that keep insertion order;
where the Python dict guarantees unique keys, theorems carry a
Nodup hypothesis on the key list.
-/

namespace Dynalist

/-! ## Reconciliation engine (classification block of `status`) -/

/-- A status entry: document path and version, as stored per document id. -/
structure SyncEntry where
  path : String
  version : Int
deriving DecidableEq

/-- An insertion-ordered status map from document id to entry. -/
abbrev SMap := List (String × SyncEntry)

/-- Key list of a status map, in insertion order. -/
def keys (m : SMap) : List String := m.map Prod.fst

/-- Dictionary lookup, first match wins (Python dict keys are unique). -/
def lookupS : SMap → String → Option SyncEntry
  | [], _ => none
  | p :: ps, i => if p.1 = i then some p.2 else lookupS ps i

/-- The six lists built by the classification block of `status`. -/
structure Classification where
  newItems : List String
  deletedItems : List String
  modifiedItems : List String
  outdatedItems : List String
  unchangedItems : List String
  replaceExisting : List String
deriving DecidableEq

def emptyClassification : Classification := ⟨[], [], [], [], [], []⟩

/-- One iteration of the first loop of `status` (over the remote keys). -/
def remoteStep (local_status : SMap) (acc : Classification) (p : String × SyncEntry) :
    Classification :=
  match lookupS local_status p.1 with
  | none => { acc with newItems := acc.newItems ++ [p.1] }
  | some le =>
    if p.2.version < le.version then
      { acc with outdatedItems := acc.outdatedItems ++ [p.1] }
    else if le.version < p.2.version then
      { acc with modifiedItems := acc.modifiedItems ++ [p.1] }
    else
      { acc with unchangedItems := acc.unchangedItems ++ [p.1] }

/-- The first loop of `status`: `for i in remote_items: ...` -/
def remoteLoop (local_status : SMap) : Classification → SMap → Classification
  | acc, [] => acc
  | acc, p :: ps => remoteLoop local_status (remoteStep local_status acc p) ps

/-- One iteration of the inner rename scan: `for r in remote_status: ...` -/
def scanStep (i lp : String) (acc : Classification) (q : String × SyncEntry) :
    Classification :=
  if lp = q.2.path ∧ i ≠ q.1 then
    { acc with replaceExisting := acc.replaceExisting ++ [q.1] }
  else acc

/-- The inner rename scan over the whole remote map. -/
def scanLoop (i lp : String) : Classification → SMap → Classification
  | acc, [] => acc
  | acc, q :: qs => scanLoop i lp (scanStep i lp acc q) qs

/-- One iteration of the second loop of `status` (over the local keys). -/
def localStep (remote_status : SMap) (acc : Classification) (p : String × SyncEntry) :
    Classification :=
  let acc1 :=
    match lookupS remote_status p.1 with
    | none => { acc with deletedItems := acc.deletedItems ++ [p.1] }
    | some _ => acc
  scanLoop p.1 p.2.path acc1 remote_status

/-- The second loop of `status`: `for i in local_items: ...` -/
def localLoop (remote_status : SMap) : Classification → SMap → Classification
  | acc, [] => acc
  | acc, p :: ps => localLoop remote_status (localStep remote_status acc p) ps

/-- The whole classification block of `status` (cli.py lines 491-523). -/
def status (local_status remote_status : SMap) : Classification :=
  localLoop remote_status
    (remoteLoop local_status emptyClassification remote_status) local_status

/-! Characterising functions for the five primary lists, phrased per
scanned element, used to restate the loops as order-preserving filters. -/

def newF (local_status : SMap) (p : String × SyncEntry) : Option String :=
  match lookupS local_status p.1 with
  | none => some p.1
  | some _ => none

def outdatedF (local_status : SMap) (p : String × SyncEntry) : Option String :=
  match lookupS local_status p.1 with
  | none => none
  | some le => if p.2.version < le.version then some p.1 else none

def modifiedF (local_status : SMap) (p : String × SyncEntry) : Option String :=
  match lookupS local_status p.1 with
  | none => none
  | some le =>
    if p.2.version < le.version then none
    else if le.version < p.2.version then some p.1 else none

def unchangedF (local_status : SMap) (p : String × SyncEntry) : Option String :=
  match lookupS local_status p.1 with
  | none => none
  | some le =>
    if p.2.version < le.version then none
    else if le.version < p.2.version then none else some p.1

def deletedF (remote_status : SMap) (p : String × SyncEntry) : Option String :=
  match lookupS remote_status p.1 with
  | none => some p.1
  | some _ => none

def scanF (remote_status : SMap) (p : String × SyncEntry) : List String :=
  remote_status.filterMap fun q =>
    if p.2.path = q.2.path ∧ p.1 ≠ q.1 then some q.1 else none

/-! ### Loop characterisation lemmas -/

theorem scanLoop_eq (i lp : String) (acc : Classification) (rs : SMap) :
    scanLoop i lp acc rs =
      { acc with replaceExisting := acc.replaceExisting ++
          rs.filterMap fun q => if lp = q.2.path ∧ i ≠ q.1 then some q.1 else none } := by
  induction rs generalizing acc with
  | nil => obtain ⟨a, b, c, d, e, f⟩ := acc; simp [scanLoop]
  | cons q qs ih =>
    obtain ⟨a, b, c, d, e, f⟩ := acc
    rw [scanLoop, ih, scanStep]
    by_cases h : lp = q.2.path ∧ i ≠ q.1 <;> simp [h, List.filterMap_cons]

theorem remoteLoop_eq (ls : SMap) (acc : Classification) (rs : SMap) :
    remoteLoop ls acc rs =
      { acc with
        newItems := acc.newItems ++ rs.filterMap (newF ls)
        modifiedItems := acc.modifiedItems ++ rs.filterMap (modifiedF ls)
        outdatedItems := acc.outdatedItems ++ rs.filterMap (outdatedF ls)
        unchangedItems := acc.unchangedItems ++ rs.filterMap (unchangedF ls) } := by
  induction rs generalizing acc with
  | nil => obtain ⟨a, b, c, d, e, f⟩ := acc; simp [remoteLoop]
  | cons p ps ih =>
    obtain ⟨a, b, c, d, e, f⟩ := acc
    rw [remoteLoop, ih, remoteStep]
    cases hl : lookupS ls p.1 with
    | none =>
      simp [newF, modifiedF, outdatedF, unchangedF, List.filterMap_cons, hl]
    | some le =>
      by_cases h1 : p.2.version < le.version
      · simp [newF, modifiedF, outdatedF, unchangedF, List.filterMap_cons, hl, h1]
      · by_cases h2 : le.version < p.2.version <;>
          simp [newF, modifiedF, outdatedF, unchangedF, List.filterMap_cons, hl, h1, h2]

theorem localStep_eq (rs : SMap) (acc : Classification) (p : String × SyncEntry) :
    localStep rs acc p =
      { acc with
        deletedItems := acc.deletedItems ++ (deletedF rs p).toList
        replaceExisting := acc.replaceExisting ++ scanF rs p } := by
  obtain ⟨a, b, c, d, e, f⟩ := acc
  rw [localStep]
  cases hl : lookupS rs p.1 <;>
    simp [scanLoop_eq, deletedF, scanF, hl]

theorem localLoop_eq (rs : SMap) (acc : Classification) (ls : SMap) :
    localLoop rs acc ls =
      { acc with
        deletedItems := acc.deletedItems ++ ls.filterMap (deletedF rs)
        replaceExisting := acc.replaceExisting ++ ls.flatMap (scanF rs) } := by
  induction ls generalizing acc with
  | nil => obtain ⟨a, b, c, d, e, f⟩ := acc; simp [localLoop]
  | cons p ps ih =>
    obtain ⟨a, b, c, d, e, f⟩ := acc
    rw [localLoop, ih, localStep_eq]
    cases hl : deletedF rs p <;>
      simp [List.filterMap_cons, hl, List.flatMap_cons]

theorem status_new (ls rs : SMap) :
    (status ls rs).newItems = rs.filterMap (newF ls) := by
  simp [status, localLoop_eq, remoteLoop_eq, emptyClassification]

theorem status_deleted (ls rs : SMap) :
    (status ls rs).deletedItems = ls.filterMap (deletedF rs) := by
  simp [status, localLoop_eq, remoteLoop_eq, emptyClassification]

theorem status_modified (ls rs : SMap) :
    (status ls rs).modifiedItems = rs.filterMap (modifiedF ls) := by
  simp [status, localLoop_eq, remoteLoop_eq, emptyClassification]

theorem status_outdated (ls rs : SMap) :
    (status ls rs).outdatedItems = rs.filterMap (outdatedF ls) := by
  simp [status, localLoop_eq, remoteLoop_eq, emptyClassification]

theorem status_unchanged (ls rs : SMap) :
    (status ls rs).unchangedItems = rs.filterMap (unchangedF ls) := by
  simp [status, localLoop_eq, remoteLoop_eq, emptyClassification]

theorem status_replace (ls rs : SMap) :
    (status ls rs).replaceExisting = ls.flatMap (scanF rs) := by
  simp [status, localLoop_eq, remoteLoop_eq, emptyClassification]

/-! ### Lookup and membership lemmas -/

theorem lookupS_eq_none {m : SMap} {i : String} :
    lookupS m i = none ↔ i ∉ keys m := by
  induction m with
  | nil => simp [lookupS, keys]
  | cons p ps ih =>
    by_cases h : p.1 = i
    · subst h
      simp [lookupS, keys]
    · simp only [lookupS, if_neg h, keys, List.map_cons, List.mem_cons, not_or]
      rw [ih]
      constructor
      · intro hni
        exact ⟨fun he => h he.symm, hni⟩
      · intro hni
        exact hni.2

theorem lookupS_isSome {m : SMap} {i : String} :
    (lookupS m i).isSome ↔ i ∈ keys m := by
  rw [Option.isSome_iff_ne_none, not_iff_comm, ← lookupS_eq_none]

theorem lookupS_mem {m : SMap} {i : String} {e : SyncEntry}
    (h : lookupS m i = some e) : (i, e) ∈ m := by
  induction m with
  | nil => simp [lookupS] at h
  | cons p ps ih =>
    by_cases hp : p.1 = i
    · subst hp
      simp only [lookupS, if_pos rfl] at h
      injection h with h
      subst h
      simp
    · simp only [lookupS, if_neg hp] at h
      exact List.mem_cons_of_mem _ (ih h)

theorem mem_lookupS {m : SMap} {i : String} {e : SyncEntry}
    (hm : (keys m).Nodup) (h : (i, e) ∈ m) : lookupS m i = some e := by
  induction m with
  | nil => simp at h
  | cons p ps ih =>
    rw [keys, List.map_cons, List.nodup_cons] at hm
    rcases List.mem_cons.1 h with h1 | h1
    · subst h1
      simp [lookupS]
    · have hne : p.1 ≠ i := by
        intro he
        apply hm.1
        rw [he]
        exact List.mem_map_of_mem Prod.fst h1
      simp only [lookupS, if_neg hne]
      exact ih hm.2 h1

theorem mem_keys_iff {m : SMap} {i : String} :
    i ∈ keys m ↔ ∃ e, (i, e) ∈ m := by
  simp [keys]

theorem mem_new_iff {ls rs : SMap} {i : String} :
    i ∈ (status ls rs).newItems ↔ i ∈ keys rs ∧ i ∉ keys ls := by
  rw [status_new, List.mem_filterMap]
  constructor
  · rintro ⟨p, hp, hf⟩
    unfold newF at hf
    cases hl : lookupS ls p.1 <;> simp [hl] at hf
    subst hf
    exact ⟨mem_keys_iff.2 ⟨p.2, hp⟩, lookupS_eq_none.1 hl⟩
  · rintro ⟨hr, hl⟩
    obtain ⟨e, he⟩ := mem_keys_iff.1 hr
    exact ⟨(i, e), he, by simp [newF, lookupS_eq_none.2 hl]⟩

theorem mem_deleted_iff {ls rs : SMap} {i : String} :
    i ∈ (status ls rs).deletedItems ↔ i ∈ keys ls ∧ i ∉ keys rs := by
  rw [status_deleted, List.mem_filterMap]
  constructor
  · rintro ⟨p, hp, hf⟩
    unfold deletedF at hf
    cases hl : lookupS rs p.1 <;> simp [hl] at hf
    subst hf
    exact ⟨mem_keys_iff.2 ⟨p.2, hp⟩, lookupS_eq_none.1 hl⟩
  · rintro ⟨hlm, hr⟩
    obtain ⟨e, he⟩ := mem_keys_iff.1 hlm
    exact ⟨(i, e), he, by simp [deletedF, lookupS_eq_none.2 hr]⟩

theorem mem_modified_iff {ls rs : SMap} {i : String}
    (hr : (keys rs).Nodup) :
    i ∈ (status ls rs).modifiedItems ↔
      ∃ le re, lookupS ls i = some le ∧ lookupS rs i = some re ∧
        le.version < re.version := by
  rw [status_modified, List.mem_filterMap]
  constructor
  · rintro ⟨p, hp, hf⟩
    unfold modifiedF at hf
    cases hl : lookupS ls p.1 with
    | none => simp [hl] at hf
    | some le =>
      rw [hl] at hf
      dsimp only at hf
      by_cases h1 : p.2.version < le.version
      · rw [if_pos h1] at hf
        exact absurd hf (by simp)
      · rw [if_neg h1] at hf
        by_cases h2 : le.version < p.2.version
        · rw [if_pos h2] at hf
          injection hf with hf
          subst hf
          exact ⟨le, p.2, hl, mem_lookupS hr hp, h2⟩
        · rw [if_neg h2] at hf
          exact absurd hf (by simp)
  · rintro ⟨le, re, hl, hrr, hv⟩
    refine ⟨(i, re), lookupS_mem hrr, ?_⟩
    simp only [modifiedF, hl]
    rw [if_neg (by exact not_lt.2 (le_of_lt hv)), if_pos hv]

theorem mem_outdated_iff {ls rs : SMap} {i : String}
    (hr : (keys rs).Nodup) :
    i ∈ (status ls rs).outdatedItems ↔
      ∃ le re, lookupS ls i = some le ∧ lookupS rs i = some re ∧
        re.version < le.version := by
  rw [status_outdated, List.mem_filterMap]
  constructor
  · rintro ⟨p, hp, hf⟩
    unfold outdatedF at hf
    cases hl : lookupS ls p.1 with
    | none => simp [hl] at hf
    | some le =>
      rw [hl] at hf
      dsimp only at hf
      by_cases h1 : p.2.version < le.version
      · rw [if_pos h1] at hf
        injection hf with hf
        subst hf
        exact ⟨le, p.2, hl, mem_lookupS hr hp, h1⟩
      · rw [if_neg h1] at hf
        exact absurd hf (by simp)
  · rintro ⟨le, re, hl, hrr, hv⟩
    refine ⟨(i, re), lookupS_mem hrr, ?_⟩
    simp only [outdatedF, hl]
    rw [if_pos hv]

theorem mem_unchanged_iff {ls rs : SMap} {i : String}
    (hr : (keys rs).Nodup) :
    i ∈ (status ls rs).unchangedItems ↔
      ∃ le re, lookupS ls i = some le ∧ lookupS rs i = some re ∧
        le.version = re.version := by
  rw [status_unchanged, List.mem_filterMap]
  constructor
  · rintro ⟨p, hp, hf⟩
    unfold unchangedF at hf
    cases hl : lookupS ls p.1 with
    | none => simp [hl] at hf
    | some le =>
      rw [hl] at hf
      dsimp only at hf
      by_cases h1 : p.2.version < le.version
      · rw [if_pos h1] at hf
        exact absurd hf (by simp)
      · rw [if_neg h1] at hf
        by_cases h2 : le.version < p.2.version
        · rw [if_pos h2] at hf
          exact absurd hf (by simp)
        · rw [if_neg h2] at hf
          injection hf with hf
          subst hf
          refine ⟨le, p.2, hl, mem_lookupS hr hp, ?_⟩
          omega
  · rintro ⟨le, re, hl, hrr, hv⟩
    refine ⟨(i, re), lookupS_mem hrr, ?_⟩
    simp only [unchangedF, hl]
    rw [if_neg (by omega), if_neg (by omega)]

theorem mem_replace_iff {ls rs : SMap} {r : String} :
    r ∈ (status ls rs).replaceExisting ↔
      ∃ i le re, (i, le) ∈ ls ∧ (r, re) ∈ rs ∧ i ≠ r ∧ le.path = re.path := by
  rw [status_replace, List.mem_flatMap]
  constructor
  · rintro ⟨p, hp, hf⟩
    unfold scanF at hf
    rw [List.mem_filterMap] at hf
    obtain ⟨q, hq, hcond⟩ := hf
    by_cases h : p.2.path = q.2.path ∧ p.1 ≠ q.1
    · rw [if_pos h] at hcond
      simp at hcond
      subst hcond
      exact ⟨p.1, p.2, q.2, hp, hq, h.2, h.1⟩
    · rw [if_neg h] at hcond
      simp at hcond
  · rintro ⟨i, le, re, hl, hrr, hne, hpath⟩
    refine ⟨(i, le), hl, ?_⟩
    unfold scanF
    rw [List.mem_filterMap]
    exact ⟨(r, re), hrr, by rw [if_pos ⟨hpath, hne⟩]⟩

/-- Number of the five primary lists of a classification containing a
given id (the renamed-candidate overlay is not counted). -/
def memCount (i : String) (c : Classification) : Nat :=
  (if i ∈ c.newItems then 1 else 0) + (if i ∈ c.deletedItems then 1 else 0) +
  (if i ∈ c.modifiedItems then 1 else 0) + (if i ∈ c.outdatedItems then 1 else 0) +
  (if i ∈ c.unchangedItems then 1 else 0)

theorem partition_helper {ls rs : SMap}
    (hr : (keys rs).Nodup) (i : String)
    (h : i ∈ keys ls ∨ i ∈ keys rs) : memCount i (status ls rs) = 1 := by
  by_cases hils : i ∈ keys ls <;> by_cases hirs : i ∈ keys rs
  · -- present in both: version trichotomy
    obtain ⟨le, hle⟩ := Option.isSome_iff_exists.1 (lookupS_isSome.2 hils)
    obtain ⟨re, hre⟩ := Option.isSome_iff_exists.1 (lookupS_isSome.2 hirs)
    have hnew : i ∉ (status ls rs).newItems := by
      rw [mem_new_iff]; tauto
    have hdel : i ∉ (status ls rs).deletedItems := by
      rw [mem_deleted_iff]; tauto
    have hmod : i ∈ (status ls rs).modifiedItems ↔ le.version < re.version := by
      rw [mem_modified_iff hr]
      constructor
      · rintro ⟨le2, re2, h1, h2, h3⟩
        rw [hle, Option.some_inj] at h1
        rw [hre, Option.some_inj] at h2
        subst h1; subst h2
        exact h3
      · intro hv; exact ⟨le, re, hle, hre, hv⟩
    have hout : i ∈ (status ls rs).outdatedItems ↔ re.version < le.version := by
      rw [mem_outdated_iff hr]
      constructor
      · rintro ⟨le2, re2, h1, h2, h3⟩
        rw [hle, Option.some_inj] at h1
        rw [hre, Option.some_inj] at h2
        subst h1; subst h2
        exact h3
      · intro hv; exact ⟨le, re, hle, hre, hv⟩
    have hunch : i ∈ (status ls rs).unchangedItems ↔ le.version = re.version := by
      rw [mem_unchanged_iff hr]
      constructor
      · rintro ⟨le2, re2, h1, h2, h3⟩
        rw [hle, Option.some_inj] at h1
        rw [hre, Option.some_inj] at h2
        subst h1; subst h2
        exact h3
      · intro hv; exact ⟨le, re, hle, hre, hv⟩
    rcases lt_trichotomy le.version re.version with hv | hv | hv
    · rw [memCount, if_neg hnew, if_neg hdel, if_pos (hmod.2 hv),
        if_neg (by rw [hout]; omega), if_neg (by rw [hunch]; omega)]
    · rw [memCount, if_neg hnew, if_neg hdel, if_neg (by rw [hmod]; omega),
        if_neg (by rw [hout]; omega), if_pos (hunch.2 hv)]
    · rw [memCount, if_neg hnew, if_neg hdel, if_neg (by rw [hmod]; omega),
        if_pos (hout.2 hv), if_neg (by rw [hunch]; omega)]
  · -- local only: deleted
    have h1 : i ∉ (status ls rs).newItems := by rw [mem_new_iff]; tauto
    have h2 : i ∈ (status ls rs).deletedItems := mem_deleted_iff.2 ⟨hils, hirs⟩
    have h3 : i ∉ (status ls rs).modifiedItems := by
      rw [mem_modified_iff hr]
      rintro ⟨le, re, _, hrr, _⟩
      exact hirs (lookupS_isSome.1 (by simp [hrr]))
    have h4 : i ∉ (status ls rs).outdatedItems := by
      rw [mem_outdated_iff hr]
      rintro ⟨le, re, _, hrr, _⟩
      exact hirs (lookupS_isSome.1 (by simp [hrr]))
    have h5 : i ∉ (status ls rs).unchangedItems := by
      rw [mem_unchanged_iff hr]
      rintro ⟨le, re, _, hrr, _⟩
      exact hirs (lookupS_isSome.1 (by simp [hrr]))
    rw [memCount, if_neg h1, if_pos h2, if_neg h3, if_neg h4, if_neg h5]
  · -- remote only: new
    have h1 : i ∈ (status ls rs).newItems := mem_new_iff.2 ⟨hirs, hils⟩
    have h2 : i ∉ (status ls rs).deletedItems := by rw [mem_deleted_iff]; tauto
    have h3 : i ∉ (status ls rs).modifiedItems := by
      rw [mem_modified_iff hr]
      rintro ⟨le, re, hll, _, _⟩
      exact hils (lookupS_isSome.1 (by simp [hll]))
    have h4 : i ∉ (status ls rs).outdatedItems := by
      rw [mem_outdated_iff hr]
      rintro ⟨le, re, hll, _, _⟩
      exact hils (lookupS_isSome.1 (by simp [hll]))
    have h5 : i ∉ (status ls rs).unchangedItems := by
      rw [mem_unchanged_iff hr]
      rintro ⟨le, re, hll, _, _⟩
      exact hils (lookupS_isSome.1 (by simp [hll]))
    rw [memCount, if_pos h1, if_neg h2, if_neg h3, if_neg h4, if_neg h5]
  · tauto

theorem filterMap_key_sublist (f : String × SyncEntry → Option String)
    (hf : ∀ p i, f p = some i → i = p.1) (l : SMap) :
    (l.filterMap f).Sublist (keys l) := by
  induction l with
  | nil => simp [keys]
  | cons p ps ih =>
    rw [List.filterMap_cons]
    cases hp : f p with
    | none => exact ih.cons p.1
    | some i =>
      have := hf p i hp
      subst this
      exact ih.cons₂ p.1

theorem newF_key (ls : SMap) (p : String × SyncEntry) (j : String)
    (h : newF ls p = some j) : j = p.1 := by
  unfold newF at h
  split at h
  · exact (Option.some_inj.1 h).symm
  · exact absurd h (by simp)

theorem deletedF_key (rs : SMap) (p : String × SyncEntry) (j : String)
    (h : deletedF rs p = some j) : j = p.1 := by
  unfold deletedF at h
  split at h
  · exact (Option.some_inj.1 h).symm
  · exact absurd h (by simp)

theorem modifiedF_key (ls : SMap) (p : String × SyncEntry) (j : String)
    (h : modifiedF ls p = some j) : j = p.1 := by
  unfold modifiedF at h
  split at h
  · exact absurd h (by simp)
  · split at h
    · exact absurd h (by simp)
    · split at h
      · exact (Option.some_inj.1 h).symm
      · exact absurd h (by simp)

theorem outdatedF_key (ls : SMap) (p : String × SyncEntry) (j : String)
    (h : outdatedF ls p = some j) : j = p.1 := by
  unfold outdatedF at h
  split at h
  · exact absurd h (by simp)
  · split at h
    · exact (Option.some_inj.1 h).symm
    · exact absurd h (by simp)

theorem unchangedF_key (ls : SMap) (p : String × SyncEntry) (j : String)
    (h : unchangedF ls p = some j) : j = p.1 := by
  unfold unchangedF at h
  split at h
  · exact absurd h (by simp)
  · split at h
    · exact absurd h (by simp)
    · split at h
      · exact absurd h (by simp)
      · exact (Option.some_inj.1 h).symm

/-! ### Claim theorems for the reconciliation engine -/

/-- Example maps used by the claim witnesses. -/
def exL1 : SMap := [("A", ⟨"x", 1⟩), ("C", ⟨"z", 3⟩)]

def exR1 : SMap := [("A", ⟨"x", 2⟩), ("B", ⟨"y", 1⟩)]

def exL2 : SMap := [("A", ⟨"x", 1⟩)]

def exR2 : SMap := [("B", ⟨"x", 1⟩)]

def exL3 : SMap := [("A", ⟨"x", 1⟩)]

def exR3 : SMap := [("A", ⟨"x", 2⟩)]

/-- C1: for every pair of finite insertion-ordered status maps, the
reconciliation in `status` places every id of local union remote into exactly
one of the five primary lists (new, deleted, modified, outdated, unchanged),
and each list keeps its ids in the insertion order of the population it is
scanned from: new, modified, outdated and unchanged are sublists of the
remote key order, deleted is a sublist of the local key order, so no
order-losing set semantics occur. -/
theorem status_partitions_and_preserves_order :
    (∀ ls rs : SMap, (keys ls).Nodup → (keys rs).Nodup →
       ∀ i, i ∈ keys ls ∨ i ∈ keys rs → memCount i (status ls rs) = 1) ∧
    (∀ ls rs : SMap,
       (status ls rs).newItems.Sublist (keys rs) ∧
       (status ls rs).modifiedItems.Sublist (keys rs) ∧
       (status ls rs).outdatedItems.Sublist (keys rs) ∧
       (status ls rs).unchangedItems.Sublist (keys rs) ∧
       (status ls rs).deletedItems.Sublist (keys ls)) := by
  constructor
  · intro ls rs _hl hr i h
    exact partition_helper hr i h
  · intro ls rs
    refine ⟨?_, ?_, ?_, ?_, ?_⟩
    · rw [status_new]
      exact filterMap_key_sublist _ (newF_key ls) rs
    · rw [status_modified]
      exact filterMap_key_sublist _ (modifiedF_key ls) rs
    · rw [status_outdated]
      exact filterMap_key_sublist _ (outdatedF_key ls) rs
    · rw [status_unchanged]
      exact filterMap_key_sublist _ (unchangedF_key ls) rs
    · rw [status_deleted]
      exact filterMap_key_sublist _ (deletedF_key rs) ls

theorem status_partitions_and_preserves_order_witness :
    memCount "A" (status exL1 exR1) = 1 ∧
    (status exL1 exR1).newItems.Sublist (keys exR1) :=
  ⟨status_partitions_and_preserves_order.1 exL1 exR1 (by decide) (by decide)
      "A" (Or.inl (by decide)),
   (status_partitions_and_preserves_order.2 exL1 exR1).1⟩

/-- C2: a remote id r is flagged as replace-existing exactly when some local
id i exists with i different from r and the same stored path; the flag is an
overlay (a flagged id still sits in exactly one of the five primary lists);
and on local A at path x against remote B at path x the result is
deleted = [A], new = [B], with B flagged. -/
theorem status_replace_existing_flag :
    (∀ ls rs : SMap, ∀ r,
       r ∈ (status ls rs).replaceExisting ↔
         ∃ i le re, (i, le) ∈ ls ∧ (r, re) ∈ rs ∧ i ≠ r ∧ le.path = re.path) ∧
    (∀ ls rs : SMap, (keys ls).Nodup → (keys rs).Nodup →
       ∀ r ∈ (status ls rs).replaceExisting, memCount r (status ls rs) = 1) ∧
    (status exL2 exR2).deletedItems = ["A"] ∧
    (status exL2 exR2).newItems = ["B"] ∧
    (status exL2 exR2).replaceExisting = ["B"] := by
  refine ⟨fun ls rs r => mem_replace_iff, ?_, by decide, by decide, by decide⟩
  intro ls rs _hl hr r hrep
  obtain ⟨i, le, re, _, hrr, _, _⟩ := mem_replace_iff.1 hrep
  exact partition_helper hr r (Or.inr (mem_keys_iff.2 ⟨re, hrr⟩))

theorem status_replace_existing_flag_witness :
    ("B" ∈ (status exL2 exR2).replaceExisting ↔
       ∃ i le re, (i, le) ∈ exL2 ∧ ("B", re) ∈ exR2 ∧ i ≠ "B" ∧
         le.path = re.path) ∧
    memCount "B" (status exL2 exR2) = 1 :=
  ⟨status_replace_existing_flag.1 exL2 exR2 "B",
   status_replace_existing_flag.2.1 exL2 exR2 (by decide) (by decide)
     "B" (by decide)⟩

/-- C3: for an id present in both maps, `status` classifies it as modified
exactly when the local version is below the remote version, outdated exactly
when the local version is above it, unchanged exactly when equal; and on
local A version 1 against remote A version 2 the modified list is [A]. -/
theorem status_version_comparison :
    (∀ ls rs : SMap, (keys rs).Nodup →
       ∀ i le re, lookupS ls i = some le → lookupS rs i = some re →
         ((i ∈ (status ls rs).modifiedItems ↔ le.version < re.version) ∧
          (i ∈ (status ls rs).outdatedItems ↔ re.version < le.version) ∧
          (i ∈ (status ls rs).unchangedItems ↔ le.version = re.version))) ∧
    (status exL3 exR3).modifiedItems = ["A"] := by
  constructor
  · intro ls rs hr i le re hle hre
    refine ⟨?_, ?_, ?_⟩
    · rw [mem_modified_iff hr]
      constructor
      · rintro ⟨le2, re2, h1, h2, h3⟩
        rw [hle, Option.some_inj] at h1
        rw [hre, Option.some_inj] at h2
        subst h1; subst h2; exact h3
      · intro hv; exact ⟨le, re, hle, hre, hv⟩
    · rw [mem_outdated_iff hr]
      constructor
      · rintro ⟨le2, re2, h1, h2, h3⟩
        rw [hle, Option.some_inj] at h1
        rw [hre, Option.some_inj] at h2
        subst h1; subst h2; exact h3
      · intro hv; exact ⟨le, re, hle, hre, hv⟩
    · rw [mem_unchanged_iff hr]
      constructor
      · rintro ⟨le2, re2, h1, h2, h3⟩
        rw [hle, Option.some_inj] at h1
        rw [hre, Option.some_inj] at h2
        subst h1; subst h2; exact h3
      · intro hv; exact ⟨le, re, hle, hre, hv⟩
  · decide

theorem status_version_comparison_witness :
    "A" ∈ (status exL3 exR3).modifiedItems ↔ (1 : Int) < 2 :=
  (status_version_comparison.1 exL3 exR3 (by decide) "A" ⟨"x", 1⟩ ⟨"x", 2⟩
    (by decide) (by decide)).1

/-! ## Outline serializer (the `_write_node` function) -/

/-- A flat document node record; optional fields mirror the presence checks
of the Python code on the JSON dictionary. -/
structure NodeRecord where
  id : String
  content : Option String := none
  note : Option String := none
  checkbox : Option Bool := none
  checked : Option Bool := none
  color : Option Int := none
  numbered : Option Bool := none
  collapsed : Option Bool := none
  children : Option (List String) := none
deriving DecidableEq

/-- Character translation table of the `_escape` helper. -/
def escapeChar (c : Char) : String :=
  if c = '&' then "&amp;"
  else if c = '<' then "&lt;"
  else if c = '>' then "&gt;"
  else if c = Char.ofNat 34 then "&quot;"
  else if c = Char.ofNat 39 then "&apos;"
  else String.singleton c

/-- The `_escape` helper: translate every character of the text. -/
def escape (s : String) : String := String.join (s.data.map escapeChar)

/-- Conditional attribute fragments, in the order the Python code appends
them to `parts`; an empty list is produced when the append is skipped. -/
def contentAttr (node : NodeRecord) : List String :=
  match node.content with
  | some c => ["text=\"" ++ escape c ++ "\""]
  | none => []

def noteAttr (node : NodeRecord) : List String :=
  match node.note with
  | some s => if s = "" then [] else ["_note=\"" ++ escape s ++ "\""]
  | none => []

def checkboxAttr (node : NodeRecord) : List String :=
  if node.checkbox.getD false then ["checkbox=\"true\""] else []

def completeAttr (node : NodeRecord) : List String :=
  if node.checked.getD false then ["complete=\"true\""] else []

def colorLabelAttr (node : NodeRecord) : List String :=
  match node.color with
  | some c => if c = 0 then [] else ["colorLabel=\"" ++ toString c ++ "\""]
  | none => []

def listStyleAttr (node : NodeRecord) : List String :=
  if node.numbered.getD false then ["listStyle=\"arabic\""] else []

def collapsedAttr (node : NodeRecord) : List String :=
  if node.collapsed.getD false then ["collapsed=\"true\""] else []

/-- The `parts` list built by `_write_node` (cli.py lines 225-254):
the element name followed by the conditionally appended attributes. -/
def nodeParts (node : NodeRecord) (with_format with_state : Bool) : List String :=
  ["outline"] ++ contentAttr node ++ noteAttr node ++
    (if with_format then
      checkboxAttr node ++ completeAttr node ++ colorLabelAttr node ++
        listStyleAttr node
    else []) ++
    (if with_state then collapsedAttr node else [])

/-- The attribute rule table as the design describes it: one optional
attribute per row, in the fixed order text, note (spelled _note in the
output), checkbox, complete, colorLabel, listStyle, collapsed. -/
def ruleAttrs (node : NodeRecord) : List String :=
  List.filterMap id
    [(node.content.map fun c => "text=\"" ++ escape c ++ "\""),
     (match node.note with
      | some s => if s = "" then none else some ("_note=\"" ++ escape s ++ "\"")
      | none => none),
     (if node.checkbox.getD false then some "checkbox=\"true\"" else none),
     (if node.checked.getD false then some "complete=\"true\"" else none),
     (match node.color with
      | some c => if c = 0 then none else some ("colorLabel=\"" ++ toString c ++ "\"")
      | none => none),
     (if node.numbered.getD false then some "listStyle=\"arabic\"" else none),
     (if node.collapsed.getD false then some "collapsed=\"true\"" else none)]

theorem filterMap_id_cons {α : Type} (o : Option α) (l : List (Option α)) :
    List.filterMap id (o :: l) = o.toList ++ List.filterMap id l := by
  cases o <;> simp

theorem contentAttr_eq (node : NodeRecord) :
    contentAttr node =
      (node.content.map fun c => "text=\"" ++ escape c ++ "\"").toList := by
  cases h : node.content <;> simp [contentAttr, h]

theorem noteAttr_eq (node : NodeRecord) :
    noteAttr node =
      (match node.note with
       | some s => if s = "" then none else some ("_note=\"" ++ escape s ++ "\"")
       | none => none).toList := by
  cases h : node.note with
  | none => simp [noteAttr, h]
  | some s => by_cases hs : s = "" <;> simp [noteAttr, h, hs]

theorem checkboxAttr_eq (node : NodeRecord) :
    checkboxAttr node =
      (if node.checkbox.getD false then some "checkbox=\"true\"" else none).toList := by
  by_cases h : node.checkbox.getD false <;> simp [checkboxAttr, h]

theorem completeAttr_eq (node : NodeRecord) :
    completeAttr node =
      (if node.checked.getD false then some "complete=\"true\"" else none).toList := by
  by_cases h : node.checked.getD false <;> simp [completeAttr, h]

theorem colorLabelAttr_eq (node : NodeRecord) :
    colorLabelAttr node =
      (match node.color with
       | some c => if c = 0 then none else some ("colorLabel=\"" ++ toString c ++ "\"")
       | none => none).toList := by
  cases h : node.color with
  | none => simp [colorLabelAttr, h]
  | some c => by_cases hc : c = 0 <;> simp [colorLabelAttr, h, hc]

theorem listStyleAttr_eq (node : NodeRecord) :
    listStyleAttr node =
      (if node.numbered.getD false then some "listStyle=\"arabic\"" else none).toList := by
  by_cases h : node.numbered.getD false <;> simp [listStyleAttr, h]

theorem collapsedAttr_eq (node : NodeRecord) :
    collapsedAttr node =
      (if node.collapsed.getD false then some "collapsed=\"true\"" else none).toList := by
  by_cases h : node.collapsed.getD false <;> simp [collapsedAttr, h]

/-- Examples for the serializer claims. -/
def exNote : NodeRecord := { id := "n1", content := some "a", note := some "b" }

def exChecked : NodeRecord := { id := "n2", content := some "a", checked := some false }

def exColor : NodeRecord := { id := "n3", content := some "a", color := some 0 }

/-- C4 counterexample: on a node with a present non-empty note the
serializer emits the attribute token spelled `_note`, not `note` as the
claim names it; the parts list carrying an attribute named `note` is not
produced. -/
theorem node_attribute_note_spelling_counterexample :
    nodeParts exNote true true = ["outline", "text=\"a\"", "_note=\"b\""] ∧
    nodeParts exNote true true ≠ ["outline", "text=\"a\"", "note=\"b\""] ∧
    "note=\"b\"" ∉ nodeParts exNote true true := by
  refine ⟨by decide, by decide, by decide⟩

/-- C4 amended: for every node record the element carries exactly the
attributes of the rule table in the fixed order text, _note, checkbox,
complete, colorLabel, listStyle, collapsed; a text attribute built from the
escaped content is always present when content is; free text is escaped for
the five metacharacters (content a&b gives text a&amp;b); checked false
emits no complete attribute and color 0 emits no colorLabel attribute. -/
theorem node_attribute_rule_table :
    (∀ node : NodeRecord, nodeParts node true true = "outline" :: ruleAttrs node) ∧
    (∀ (node : NodeRecord) (c : String), node.content = some c →
       ("text=\"" ++ escape c ++ "\"") ∈ nodeParts node true true) ∧
    escape "a&b" = "a&amp;b" ∧
    nodeParts exChecked true true = ["outline", "text=\"a\""] ∧
    nodeParts exColor true true = ["outline", "text=\"a\""] := by
  have hmain : ∀ node : NodeRecord,
      nodeParts node true true = "outline" :: ruleAttrs node := by
    intro node
    rw [nodeParts, ruleAttrs]
    simp only [filterMap_id_cons, List.filterMap_nil]
    rw [← contentAttr_eq, ← noteAttr_eq, ← checkboxAttr_eq, ← completeAttr_eq,
      ← colorLabelAttr_eq, ← listStyleAttr_eq, ← collapsedAttr_eq]
    simp [List.append_assoc]
  refine ⟨hmain, ?_, by decide, by decide, by decide⟩
  intro node c hc
  rw [hmain node, ruleAttrs]
  simp only [filterMap_id_cons, hc, Option.map_some]
  simp

theorem node_attribute_rule_table_witness :
    ("text=\"" ++ escape "a" ++ "\"") ∈ nodeParts exNote true true :=
  node_attribute_rule_table.2.1 exNote "a" rfl

/-! ### The recursive element writer -/

/-- Node table lookup by id (the `node_table` dictionary). -/
def lookupN : List NodeRecord → String → Option NodeRecord
  | [], _ => none
  | x :: xs, i => if x.id = i then some x else lookupN xs i

/-- The indentation string: one tab per depth level. -/
def tabs (n : Nat) : String := String.mk (List.replicate n (Char.ofNat 9))

/-- Joining the parts with single spaces, as the Python join does. -/
def joinSp (parts : List String) : String := String.intercalate " " parts

/-- The for loop over the children list inside `_write_node`: each child is
written with the given writer, a raised error propagates, and the emitted
lines are concatenated in listed order. -/
def write_children (w : String → Except String (List String)) :
    List String → Except String (List String)
  | [] => .ok []
  | c :: cs =>
    match w c with
    | .error e => .error e
    | .ok out =>
      match write_children w cs with
      | .error e => .error e
      | .ok rest => .ok (out ++ rest)

/-- The `_write_node` recursion (cli.py lines 198-267), returning the
emitted lines. The fuel argument stands for the Python call stack (the
recursion is unbounded on cyclic child links); a missing node id raises,
uncaught, through the whole recursion, and the children of a container
node are written in listed order one tab level deeper. -/
def write_node : Nat → String → List NodeRecord → Nat → Bool → Bool →
    Except String (List String)
  | 0, _, _, _, _, _ => .error "recursion limit"
  | fuel + 1, node_id, node_table, indent_level, wf, ws =>
    match lookupN node_table node_id with
    | none => .error ("Invalid node ID: " ++ node_id)
    | some node =>
      match node.children with
      | some cs =>
        match write_children
            (fun c => write_node fuel c node_table (indent_level + 1) wf ws) cs with
        | .error e => .error e
        | .ok body =>
          .ok ([tabs indent_level ++ "<" ++ joinSp (nodeParts node wf ws) ++ ">"] ++
            body ++ [tabs indent_level ++ "</" ++ "outline" ++ ">"])
      | none => .ok [tabs indent_level ++ "<" ++ joinSp (nodeParts node wf ws) ++ "/>"]

theorem write_children_ok (w : String → Except String (List String)) :
    ∀ (cs : List String) (res : List String),
      write_children w cs = .ok res →
      ∃ outs, List.Forall₂ (fun c out => w c = .ok out) cs outs ∧
        res = outs.flatten := by
  intro cs
  induction cs with
  | nil =>
    intro res h
    rw [write_children] at h
    injection h with h
    exact ⟨[], List.Forall₂.nil, by simp [h.symm]⟩
  | cons c cs ih =>
    intro res h
    rw [write_children] at h
    cases hw : w c with
    | error e => rw [hw] at h; exact absurd h (by simp)
    | ok out =>
      rw [hw] at h
      cases hc : write_children w cs with
      | error e => rw [hc] at h; exact absurd h (by simp)
      | ok rest =>
        rw [hc] at h
        injection h with h
        obtain ⟨outs, hall, hres⟩ := ih rest hc
        exact ⟨out :: outs, List.Forall₂.cons hw hall, by simp [h.symm, hres]⟩

/-- Example node tables for the serializer claims. -/
def exLeafTable : List NodeRecord := [{ id := "root", content := some "a" }]

def exEmptyChildrenTable : List NodeRecord :=
  [{ id := "root", content := some "a", children := some [] }]

/-- C8: a node record with a children key (even a present-but-empty list)
is emitted as an open element line, the recursively emitted children lines
one tab deeper in listed order, and a matching closing element line; a
record without a children key is emitted as a single self-closed element
line and never a closing tag. -/
theorem write_node_container_vs_leaf :
    (∀ fuel node_id node_table n wf ws node,
       lookupN node_table node_id = some node → node.children = none →
       write_node (fuel + 1) node_id node_table n wf ws =
         .ok [tabs n ++ "<" ++ joinSp (nodeParts node wf ws) ++ "/>"]) ∧
    (∀ fuel node_id node_table n wf ws node cs lines,
       lookupN node_table node_id = some node → node.children = some cs →
       write_node (fuel + 1) node_id node_table n wf ws = .ok lines →
       ∃ outs, List.Forall₂
           (fun c out =>
             write_node fuel c node_table (n + 1) wf ws = .ok out) cs outs ∧
         lines = (tabs n ++ "<" ++ joinSp (nodeParts node wf ws) ++ ">") ::
           (outs.flatten ++ [tabs n ++ "</" ++ "outline" ++ ">"])) ∧
    write_node 1 "root" exEmptyChildrenTable 0 false false =
      .ok ["<outline text=\"a\">", "</outline>"] ∧
    write_node 1 "root" exLeafTable 0 false false =
      .ok ["<outline text=\"a\"/>"] := by
  refine ⟨?_, ?_, by rfl, by rfl⟩
  · intro fuel node_id node_table n wf ws node hl hc
    simp only [write_node, hl, hc]
  · intro fuel node_id node_table n wf ws node cs lines hl hc hok
    simp only [write_node, hl, hc] at hok
    cases hw : write_children
        (fun c => write_node fuel c node_table (n + 1) wf ws) cs with
    | error e => rw [hw] at hok; exact absurd hok (by simp)
    | ok body =>
      rw [hw] at hok
      injection hok with hok
      obtain ⟨outs, hall, hres⟩ := write_children_ok _ cs body hw
      exact ⟨outs, hall, by rw [← hok, hres]; simp⟩

theorem write_node_container_vs_leaf_witness :
    write_node 1 "root" exLeafTable 0 false false =
      .ok [tabs 0 ++ "<" ++
        joinSp (nodeParts { id := "root", content := some "a" } false false) ++ "/>"] :=
  write_node_container_vs_leaf.1 0 "root" exLeafTable 0 false false
    { id := "root", content := some "a" } rfl rfl

/-! ## Tree builder (the `_build_item_tree` function) -/

/-- A flat item record of the remote listing (document or folder). -/
structure Record where
  id : String
  type : String
  title : String
  children : Option (List String) := none
deriving DecidableEq

/-- Item table lookup by id (the `item_table` dictionary). -/
def lookupR : List Record → String → Option Record
  | [], _ => none
  | x :: xs, i => if x.id = i then some x else lookupR xs i

/-- The id list of a record list. -/
def ids (files : List Record) : List String := files.map Record.id

/-- Overwriting the title of the record with the given id with the slash
(the in-place mutation on line 67; the record found by the dictionary is
the record stored in the list, so the list changes too). -/
def setRootTitle : List Record → String → List Record
  | [], _ => []
  | r :: rs, i =>
    if r.id = i then { r with title := "/" } :: rs else r :: setRootTitle rs i

/-- A built tree node: id, type, derived path and child items in order.
The path is the sequence of titles joined from the chosen root down. -/
inductive Item where
  | mk : String → String → List String → List Item → Item

def Item.id : Item → String
  | .mk i _ _ _ => i

def Item.type : Item → String
  | .mk _ t _ _ => t

def Item.path : Item → List String
  | .mk _ _ p _ => p

def Item.children : Item → List Item
  | .mk _ _ _ cs => cs

/-- The for loop over the children ids inside `_create_node`: a child whose
build raises is skipped and its error message recorded, a child that builds
is appended; the second component collects the reported messages in
emission order. -/
def build_children (w : String → Except String (Item × List String)) :
    List String → List Item × List String
  | [] => ([], [])
  | c :: cs =>
    match w c with
    | .error e => ((build_children w cs).1, e :: (build_children w cs).2)
    | .ok (item, errs) =>
      (item :: (build_children w cs).1, errs ++ (build_children w cs).2)

/-- The `_create_node` recursion (cli.py lines 45-64). The fuel argument
stands for the Python call stack (the recursion is unbounded on cyclic
data); the raised message interpolates the requested root id, exactly as
the Python f-string does. -/
def create_node : Nat → String → List Record → List String → String →
    Except String (Item × List String)
  | 0, _, _, _, _ => .error "recursion limit"
  | fuel + 1, item_id, item_table, parent_path, root_id =>
    match lookupR item_table item_id with
    | none => .error ("Invalid item ID: " ++ root_id)
    | some entry =>
      let path := parent_path ++ [entry.title]
      match entry.children with
      | none => .ok (.mk entry.id entry.type path [], [])
      | some cs =>
        let r := build_children
          (fun c => create_node fuel c item_table path root_id) cs
        .ok (.mk entry.id entry.type path r.1, r.2)

/-- The `_build_item_tree` function (cli.py lines 42-73): index the records,
overwrite the root record title in place (a missing root file id raises a
KeyError before anything is built), then build from the requested root id.
The returned record list is the caller-visible state of the input list
after the call. -/
def build_item_tree (files : List Record) (root_file_id root_id : String)
    (fuel : Nat) : List Record × Except String (Item × List String) :=
  match lookupR files root_file_id with
  | none => (files, .error ("KeyError: " ++ root_file_id))
  | some _ =>
    let table := setRootTitle files root_file_id
    (table, create_node fuel root_id table [] root_id)

/-! ## Export scheduler (the batching loop of `export_folder`) -/

/-- Observable scheduler events: processing one document
(fetch, serialize, write) or sleeping for a number of seconds. -/
inductive Event (α : Type) where
  | proc (a : α)
  | sleep (n : Nat)
deriving DecidableEq

def procOf {α : Type} : Event α → Option α
  | .proc a => some a
  | .sleep _ => none

/-- The batching loop of `export_folder` (cli.py lines 381-387): process
the next slice of 20 documents, then sleep for 60 seconds exactly when
documents remain. The fuel argument only bounds the number of batches;
the wrapper passes the list length, which always suffices. -/
def scheduleLoop {α : Type} : Nat → List α → List (Event α)
  | _, [] => []
  | 0, _ :: _ => []
  | fuel + 1, x :: xs =>
    ((x :: xs).take 20).map Event.proc ++
      (match (x :: xs).drop 20 with
       | [] => []
       | _ :: _ => Event.sleep 60 :: scheduleLoop fuel ((x :: xs).drop 20))

def schedule {α : Type} (docs : List α) : List (Event α) :=
  scheduleLoop docs.length docs

/-- The batch decomposition the design describes: consecutive slices of
20 documents in order. -/
def chunksLoop {α : Type} : Nat → List α → List (List α)
  | _, [] => []
  | 0, _ :: _ => []
  | fuel + 1, x :: xs => (x :: xs).take 20 :: chunksLoop fuel ((x :: xs).drop 20)

def chunks20 {α : Type} (l : List α) : List (List α) := chunksLoop l.length l

/-- The `_collect_documents` generator: document leaves of the item tree
in depth-first order (an unknown type yields nothing and is reported). -/
def collect_documents : Item → List Item
  | .mk i t p cs =>
    if t = "document" then [.mk i t p cs]
    else if t = "folder" then
      (cs.attach.map fun c => collect_documents c.1).flatten
    else []
termination_by it => sizeOf it
decreasing_by
  simp only [Item.mk.sizeOf_spec]
  have := List.sizeOf_lt_of_mem c.2
  omega

/-- Path display used in error messages (abstracting the PurePosixPath
string form). -/
def pathString (p : List String) : String := String.intercalate "/" p

/-- The `export_folder` operation after the item tree is fetched
(cli.py lines 374-387): a non-folder target is rejected with an error and
nothing is scheduled; a folder target yields the batched schedule over its
collected documents in order. -/
def exportFolder (item : Item) : Except String (List (Event String)) :=
  if item.type ≠ "folder" then
    .error ("Not a folder: " ++ pathString item.path ++ " [" ++ item.id ++ "]")
  else
    .ok (schedule ((collect_documents item).map Item.id))

/-! ### Scheduler lemmas -/

theorem scheduleLoop_cons_small {α : Type} (fuel : Nat) (x : α) (xs : List α)
    (h : (x :: xs).drop 20 = []) :
    scheduleLoop (fuel + 1) (x :: xs) = ((x :: xs).take 20).map Event.proc := by
  simp only [scheduleLoop, h, List.append_nil]

theorem scheduleLoop_cons_big {α : Type} (fuel : Nat) (x : α) (xs : List α)
    (d : α) (ds : List α) (h : (x :: xs).drop 20 = d :: ds) :
    scheduleLoop (fuel + 1) (x :: xs) =
      ((x :: xs).take 20).map Event.proc ++
        Event.sleep 60 :: scheduleLoop fuel (d :: ds) := by
  simp only [scheduleLoop, h]

theorem chunksLoop_cons_small {α : Type} (fuel : Nat) (x : α) (xs : List α)
    (h : (x :: xs).drop 20 = []) :
    chunksLoop (fuel + 1) (x :: xs) = [(x :: xs).take 20] := by
  simp only [chunksLoop, h]

theorem chunksLoop_cons_big {α : Type} (fuel : Nat) (x : α) (xs : List α)
    (d : α) (ds : List α) (h : (x :: xs).drop 20 = d :: ds) :
    chunksLoop (fuel + 1) (x :: xs) =
      (x :: xs).take 20 :: chunksLoop fuel (d :: ds) := by
  simp only [chunksLoop, h]

theorem intercalate_singleton {β : Type} (sep a : List β) :
    List.intercalate sep [a] = a := by
  simp [List.intercalate]

theorem intercalate_cons_cons {β : Type} (sep a b : List β) (rest : List (List β)) :
    List.intercalate sep (a :: b :: rest) =
      a ++ sep ++ List.intercalate sep (b :: rest) := by
  simp [List.intercalate, List.intersperse_cons_cons]

theorem chunksLoop_fuel_congr {α : Type} :
    ∀ (fuel fuel2 : Nat) (docs : List α), docs.length ≤ fuel →
      docs.length ≤ fuel2 → chunksLoop fuel docs = chunksLoop fuel2 docs := by
  intro fuel
  induction fuel with
  | zero =>
    intro fuel2 docs h _
    cases docs with
    | nil => cases fuel2 <;> simp [chunksLoop]
    | cons x xs => simp at h
  | succ fuel ih =>
    intro fuel2 docs h h2
    cases docs with
    | nil => cases fuel2 <;> simp [chunksLoop]
    | cons x xs =>
      cases fuel2 with
      | zero => simp at h2
      | succ fuel2 =>
        cases hd : (x :: xs).drop 20 with
        | nil => rw [chunksLoop_cons_small fuel x xs hd,
            chunksLoop_cons_small fuel2 x xs hd]
        | cons d ds =>
          have hlen : (d :: ds).length = (x :: xs).length - 20 := by
            rw [← hd, List.length_drop]
          rw [chunksLoop_cons_big fuel x xs d ds hd,
            chunksLoop_cons_big fuel2 x xs d ds hd,
            ih fuel2 (d :: ds) (by simp at h hlen ⊢; omega)
              (by simp at h2 hlen ⊢; omega)]

theorem scheduleLoop_intercalate {α : Type} :
    ∀ (fuel : Nat) (docs : List α), docs.length ≤ fuel →
      scheduleLoop fuel docs =
        List.intercalate [Event.sleep 60]
          ((chunksLoop fuel docs).map (List.map Event.proc)) := by
  intro fuel
  induction fuel with
  | zero =>
    intro docs h
    cases docs with
    | nil => simp [scheduleLoop, chunksLoop, List.intercalate]
    | cons x xs => simp at h
  | succ fuel ih =>
    intro docs h
    cases docs with
    | nil => simp [scheduleLoop, chunksLoop, List.intercalate]
    | cons x xs =>
      cases hd : (x :: xs).drop 20 with
      | nil =>
        rw [scheduleLoop_cons_small fuel x xs hd, chunksLoop_cons_small fuel x xs hd]
        rw [List.map_cons, List.map_nil, intercalate_singleton]
      | cons d ds =>
        have hlen : (d :: ds).length = (x :: xs).length - 20 := by
          rw [← hd, List.length_drop]
        have hle : (d :: ds).length ≤ fuel := by
          simp at h hlen ⊢
          omega
        rw [scheduleLoop_cons_big fuel x xs d ds hd,
          chunksLoop_cons_big fuel x xs d ds hd]
        have hne : chunksLoop fuel (d :: ds) ≠ [] := by
          cases fuel with
          | zero => simp at hle
          | succ fuel =>
            cases he : (d :: ds).drop 20 with
            | nil => rw [chunksLoop_cons_small fuel d ds he]; simp
            | cons e es => rw [chunksLoop_cons_big fuel d ds e es he]; simp
        obtain ⟨c, cs2, hc⟩ := List.exists_cons_of_ne_nil hne
        rw [ih (d :: ds) hle, hc]
        simp only [List.map_cons]
        rw [intercalate_cons_cons]
        simp [List.append_assoc]

theorem scheduleLoop_filterMap {α : Type} :
    ∀ (fuel : Nat) (docs : List α), docs.length ≤ fuel →
      (scheduleLoop fuel docs).filterMap procOf = docs := by
  intro fuel
  induction fuel with
  | zero =>
    intro docs h
    cases docs with
    | nil => simp [scheduleLoop]
    | cons x xs => simp at h
  | succ fuel ih =>
    intro docs h
    cases docs with
    | nil => simp [scheduleLoop]
    | cons x xs =>
      cases hd : (x :: xs).drop 20 with
      | nil =>
        rw [scheduleLoop_cons_small fuel x xs hd]
        have htake : (x :: xs).take 20 = x :: xs := by
          have := List.drop_eq_nil_iff.1 hd
          exact List.take_of_length_le this
        rw [List.filterMap_map]
        rw [show (procOf ∘ Event.proc : α → Option α) = some from rfl]
        rw [List.filterMap_some]
        exact htake
      | cons d ds =>
        have hlen : (d :: ds).length = (x :: xs).length - 20 := by
          rw [← hd, List.length_drop]
        have hle : (d :: ds).length ≤ fuel := by
          simp at h hlen ⊢
          omega
        rw [scheduleLoop_cons_big fuel x xs d ds hd]
        rw [List.filterMap_append, List.filterMap_map, List.filterMap_cons]
        simp only [procOf]
        rw [ih (d :: ds) hle]
        have : List.filterMap (fun a => procOf (Event.proc a)) ((x :: xs).take 20) =
            (x :: xs).take 20 := by
          simp [procOf]
        rw [show (procOf ∘ Event.proc : α → Option α) = some from rfl]
        rw [List.filterMap_some, ← hd, List.take_append_drop]

/-! ### Claim theorems for the export scheduler -/

/-- C5: the scheduler processes the flattened document list in order in
fixed-size batches of 20 (the event stream is the batch decomposition
interleaved with full 60-second sleeps, every document is processed exactly
once in order, a single incomplete batch sleeps never, and a full batch
sleeps exactly when documents remain), and on 45 documents exactly two
sleeps occur, after document 20 and after document 40, none after 45. -/
theorem export_scheduler_batches :
    (∀ docs : List String,
       schedule docs =
         List.intercalate [Event.sleep 60]
           ((chunks20 docs).map (List.map Event.proc))) ∧
    (∀ docs : List String, (schedule docs).filterMap procOf = docs) ∧
    (∀ docs : List String, docs ≠ [] → docs.length ≤ 20 →
       schedule docs = docs.map Event.proc) ∧
    (∀ docs : List String, 20 < docs.length →
       schedule docs = (docs.take 20).map Event.proc ++
         Event.sleep 60 :: schedule (docs.drop 20)) ∧
    schedule (List.range 45) =
      (List.range 20).map Event.proc ++ Event.sleep 60 ::
        ((List.range 20).map (fun k => Event.proc (k + 20)) ++ Event.sleep 60 ::
          (List.range 5).map (fun k => Event.proc (k + 40))) := by
  refine ⟨?_, ?_, ?_, ?_, by decide⟩
  · intro docs
    exact scheduleLoop_intercalate docs.length docs le_rfl
  · intro docs
    exact scheduleLoop_filterMap docs.length docs le_rfl
  · intro docs hne hlen
    obtain ⟨x, xs, rfl⟩ := List.exists_cons_of_ne_nil hne
    have hd : (x :: xs).drop 20 = [] := List.drop_eq_nil_iff.2 hlen
    rw [schedule, List.length_cons, scheduleLoop_cons_small xs.length x xs hd,
      List.take_of_length_le hlen]
  · intro docs hlen
    cases docs with
    | nil => simp at hlen
    | cons x xs =>
      cases hd : (x :: xs).drop 20 with
      | nil =>
        have := List.drop_eq_nil_iff.1 hd
        omega
      | cons d ds =>
        have hlen2 : (d :: ds).length = (x :: xs).length - 20 := by
          rw [← hd, List.length_drop]
        rw [schedule, List.length_cons, scheduleLoop_cons_big xs.length x xs d ds hd]
        congr 2
        rw [schedule]
        rw [scheduleLoop_intercalate xs.length (d :: ds) (by simp at hlen2 ⊢; omega),
          scheduleLoop_intercalate (d :: ds).length (d :: ds) le_rfl,
          chunksLoop_fuel_congr xs.length (d :: ds).length (d :: ds)
            (by simp at hlen2 ⊢; omega) le_rfl]

theorem export_scheduler_batches_witness :
    schedule ["a"] = (["a"] : List String).map Event.proc :=
  export_scheduler_batches.2.2.1 ["a"] (by decide) (by decide)

/-- C9: when `export_folder` is given an item whose type is not folder, it
fails with the invalid-type error and schedules nothing: no document
processing event stream is produced. -/
theorem export_folder_rejects_non_folder :
    ∀ item : Item, item.type ≠ "folder" →
      exportFolder item =
        .error ("Not a folder: " ++ pathString item.path ++
          " [" ++ item.id ++ "]") ∧
      ∀ evs, exportFolder item ≠ .ok evs := by
  intro item h
  refine ⟨by simp [exportFolder, h], ?_⟩
  intro evs
  simp [exportFolder, h]

theorem export_folder_rejects_non_folder_witness :
    exportFolder (.mk "d1" "document" ["a"] []) =
      .error ("Not a folder: " ++ pathString (Item.path (.mk "d1" "document" ["a"] [])) ++
        " [" ++ Item.id (.mk "d1" "document" ["a"] []) ++ "]") :=
  (export_folder_rejects_non_folder (.mk "d1" "document" ["a"] []) (by decide)).1

/-! ### Tree builder lemmas -/

/-- Whether an operation succeeded (the Python call returned instead of
raising). -/
def isOkE {ε α : Type} : Except ε α → Bool
  | .ok _ => true
  | .error _ => false

theorem lookupR_id : ∀ (table : List Record) (i : String) (e : Record),
    lookupR table i = some e → e.id = i := by
  intro table i e h
  induction table with
  | nil => simp [lookupR] at h
  | cons r rs ih =>
    by_cases hr : r.id = i
    · simp only [lookupR, if_pos hr] at h
      injection h with h
      subst h
      exact hr
    · simp only [lookupR, if_neg hr] at h
      exact ih h

theorem lookupR_eq_none {table : List Record} {i : String} :
    lookupR table i = none ↔ i ∉ ids table := by
  induction table with
  | nil => simp [lookupR, ids]
  | cons r rs ih =>
    by_cases h : r.id = i
    · subst h
      simp [lookupR, ids]
    · simp only [lookupR, if_neg h, ids, List.map_cons, List.mem_cons, not_or]
      rw [ih]
      constructor
      · intro hni
        exact ⟨fun he => h he.symm, hni⟩
      · intro hni
        exact hni.2

theorem lookupR_isSome {table : List Record} {i : String} :
    (lookupR table i).isSome ↔ i ∈ ids table := by
  rw [Option.isSome_iff_ne_none, not_iff_comm, ← lookupR_eq_none]

theorem setRootTitle_lookup : ∀ (files : List Record) (i : String) (r : Record),
    lookupR files i = some r →
      lookupR (setRootTitle files i) i = some { r with title := "/" } := by
  intro files i r h
  induction files with
  | nil => simp [lookupR] at h
  | cons x xs ih =>
    by_cases hx : x.id = i
    · simp only [lookupR, if_pos hx] at h
      injection h with h
      subst h
      simp [setRootTitle, hx, lookupR]
    · simp only [lookupR, if_neg hx] at h
      simp only [setRootTitle, if_neg hx, lookupR]
      exact ih h

theorem setRootTitle_ids : ∀ (files : List Record) (i : String),
    ids (setRootTitle files i) = ids files := by
  intro files i
  induction files with
  | nil => simp [setRootTitle]
  | cons x xs ih =>
    by_cases hx : x.id = i
    · simp [setRootTitle, hx, ids, List.map_cons]
    · simp [setRootTitle, hx, ids, List.map_cons] at ih ⊢
      exact ih

theorem map_id_no_match : ∀ (rs : List Record) (i : String),
    (∀ r ∈ rs, r.id ≠ i) →
      rs.map (fun r => if r.id = i then { r with title := "/" } else r) = rs := by
  intro rs i h
  induction rs with
  | nil => simp
  | cons x xs ih =>
    rw [List.map_cons, if_neg (h x (by simp)), ih fun r hr => h r (by simp [hr])]

theorem setRootTitle_map : ∀ (files : List Record) (i : String),
    (ids files).Nodup →
      setRootTitle files i =
        files.map (fun r => if r.id = i then { r with title := "/" } else r) := by
  intro files i h
  induction files with
  | nil => simp [setRootTitle]
  | cons x xs ih =>
    rw [ids, List.map_cons, List.nodup_cons] at h
    by_cases hx : x.id = i
    · rw [setRootTitle, if_pos hx, List.map_cons, if_pos hx,
        map_id_no_match xs i fun r hr he => h.1 (by
          rw [hx, ← he]
          exact List.mem_map_of_mem Record.id hr)]
    · rw [setRootTitle, if_neg hx, List.map_cons, if_neg hx, ih h.2]

theorem build_children_mem_evidence
    (w : String → Except String (Item × List String)) :
    ∀ (cs : List String) {it : Item}, it ∈ (build_children w cs).1 →
      ∃ c ∈ cs, ∃ errs2, w c = .ok (it, errs2) := by
  intro cs
  induction cs with
  | nil => intro it h; simp [build_children] at h
  | cons c cs ih =>
    intro it h
    cases hw : w c with
    | error e =>
      simp only [build_children, hw] at h
      obtain ⟨c2, hc2, errs2, hw2⟩ := ih h
      exact ⟨c2, by simp [hc2], errs2, hw2⟩
    | ok pr =>
      simp only [build_children, hw] at h
      rcases List.mem_cons.1 h with h1 | h1
      · subst h1
        exact ⟨c, by simp, pr.2, by rw [hw]⟩
      · obtain ⟨c2, hc2, errs2, hw2⟩ := ih h1
        exact ⟨c2, by simp [hc2], errs2, hw2⟩

theorem build_children_error_mem
    (w : String → Except String (Item × List String)) :
    ∀ (cs : List String) (c : String) (e : String), c ∈ cs → w c = .error e →
      e ∈ (build_children w cs).2 := by
  intro cs
  induction cs with
  | nil => intro c e h; simp at h
  | cons c0 cs ih =>
    intro c e hc hw
    rcases List.mem_cons.1 hc with h1 | h1
    · subst h1
      rw [build_children, hw]
      simp
    · cases hw0 : w c0 with
      | error e0 =>
        rw [build_children, hw0]
        exact List.mem_cons_of_mem e0 (ih c e h1 hw)
      | ok pr =>
        rw [build_children, hw0]
        exact List.mem_append_right pr.2 (ih c e h1 hw)

theorem build_children_map_id_filter
    (w : String → Except String (Item × List String))
    (hid : ∀ c item errs, w c = .ok (item, errs) → item.id = c) :
    ∀ cs : List String,
      ((build_children w cs).1).map Item.id = cs.filter fun c => isOkE (w c) := by
  intro cs
  induction cs with
  | nil => simp [build_children]
  | cons c cs ih =>
    cases hw : w c with
    | error e =>
      rw [build_children, hw, List.filter_cons]
      simp only [isOkE, hw]
      simpa using ih
    | ok pr =>
      rw [build_children, hw, List.filter_cons]
      simp only [isOkE, hw]
      simp only [List.map_cons, hid c pr.1 pr.2 (by rw [hw]), ih]
      rfl

theorem build_children_map_id_sublist
    (w : String → Except String (Item × List String))
    (hid : ∀ c item errs, w c = .ok (item, errs) → item.id = c)
    (cs : List String) :
    (((build_children w cs).1).map Item.id).Sublist cs := by
  rw [build_children_map_id_filter w hid cs]
  exact List.filter_sublist cs

theorem create_node_zero (i : String) (table : List Record) (p : List String)
    (rid : String) : create_node 0 i table p rid = .error "recursion limit" := rfl

theorem create_node_ok_elim {fuel : Nat} {i : String} {table : List Record}
    {p : List String} {rid : String} {item : Item} {errs : List String}
    (h : create_node (fuel + 1) i table p rid = .ok (item, errs)) :
    ∃ e, lookupR table i = some e ∧ e.id = i ∧ item.id = e.id ∧
      item.type = e.type ∧ item.path = p ++ [e.title] ∧
      item.children = (build_children
        (fun c => create_node fuel c table (p ++ [e.title]) rid)
        (e.children.getD [])).1 ∧
      errs = (build_children
        (fun c => create_node fuel c table (p ++ [e.title]) rid)
        (e.children.getD [])).2 := by
  cases hl : lookupR table i with
  | none =>
    simp only [create_node, hl] at h
    exact absurd h (by simp)
  | some e =>
    simp only [create_node, hl] at h
    refine ⟨e, rfl, lookupR_id table i e hl, ?_⟩
    cases hc : e.children with
    | none =>
      rw [hc] at h
      dsimp only at h
      injection h with h
      injection h with h1 h2
      subst h1
      subst h2
      simp [Item.id, Item.type, Item.path, Item.children, hc, build_children]
    | some cs =>
      rw [hc] at h
      dsimp only at h
      injection h with h
      injection h with h1 h2
      subst h1
      subst h2
      simp [Item.id, Item.type, Item.path, Item.children, hc]

theorem create_node_isOk (fuel : Nat) (i : String) (table : List Record)
    (p : List String) (rid : String) :
    isOkE (create_node (fuel + 1) i table p rid) = (lookupR table i).isSome := by
  cases hl : lookupR table i with
  | none => simp only [create_node, hl]; rfl
  | some e =>
    simp only [create_node, hl]
    cases hc : e.children <;> simp only [hc] <;> rfl

theorem create_node_ok_id {fuel : Nat} {i : String} {table : List Record}
    {p : List String} {rid : String} {item : Item} {errs : List String}
    (h : create_node fuel i table p rid = .ok (item, errs)) : item.id = i := by
  cases fuel with
  | zero => simp [create_node] at h
  | succ fuel =>
    obtain ⟨e, _, hei, hid, _⟩ := create_node_ok_elim h
    rw [hid, hei]

theorem create_node_ok_path {fuel : Nat} {i : String} {table : List Record}
    {p : List String} {rid : String} {item : Item} {errs : List String}
    (h : create_node fuel i table p rid = .ok (item, errs)) :
    ∃ e, lookupR table i = some e ∧ item.path = p ++ [e.title] := by
  cases fuel with
  | zero => simp [create_node] at h
  | succ fuel =>
    obtain ⟨e, hl, _, _, _, hpath, _⟩ := create_node_ok_elim h
    exact ⟨e, hl, hpath⟩

theorem create_node_child_evidence {fuel : Nat} {i : String}
    {table : List Record} {p : List String} {rid : String} {item : Item}
    {errs : List String}
    (h : create_node (fuel + 1) i table p rid = .ok (item, errs)) :
    ∀ c ∈ item.children, ∃ errs2,
      create_node fuel c.id table item.path rid = .ok (c, errs2) := by
  obtain ⟨e, hl, hei, hid, hty, hpath, hch, herrs⟩ := create_node_ok_elim h
  intro c hc
  rw [hch] at hc
  obtain ⟨c', hc', errs2, hw⟩ := build_children_mem_evidence _ _ hc
  have hcid : c.id = c' := create_node_ok_id hw
  rw [hpath, hcid]
  exact ⟨errs2, hw⟩

/-- Descent in a built tree: `Descend root d it` holds when `it` is
reachable from `root` through `d` child steps. -/
inductive Descend : Item → Nat → Item → Prop where
  | refl (it : Item) : Descend it 0 it
  | step {it c d it2} : c ∈ it.children → Descend c d it2 →
      Descend it (d + 1) it2

theorem descend_evidence :
    ∀ {d : Nat} {root it2 : Item}, Descend root d it2 →
      ∀ {fuel : Nat} {i : String} {table : List Record} {p : List String}
        {rid : String} {errs : List String},
        create_node fuel i table p rid = .ok (root, errs) →
        (∃ fuel2 i2 p2 errs2,
           create_node fuel2 i2 table p2 rid = .ok (it2, errs2)) ∧
        it2.path.length = root.path.length + d := by
  intro d root it2 hdes
  induction hdes with
  | refl it =>
    intro fuel i table p rid errs h
    exact ⟨⟨fuel, i, p, errs, h⟩, by omega⟩
  | step hc hdes ih =>
    rename_i it c d it2
    intro fuel i table p rid errs h
    cases fuel with
    | zero => simp [create_node] at h
    | succ fuel =>
      obtain ⟨errs2, hw⟩ := create_node_child_evidence h c hc
      obtain ⟨hev, hlen⟩ := ih hw
      have hclen : c.path.length = it.path.length + 1 := by
        obtain ⟨e, _, hpath⟩ := create_node_ok_path hw
        rw [hpath]
        simp
      exact ⟨hev, by omega⟩

/-! ### Claim theorems for the tree builder -/

/-- Example record set with one missing child id, and the items its build
produces. -/
def exFiles : List Record :=
  [{ id := "r", type := "folder", title := "Untitled",
     children := some ["a", "missing", "b"] },
   { id := "a", type := "document", title := "A" },
   { id := "b", type := "document", title := "B" }]

def exRootRec : Record :=
  { id := "r", type := "folder", title := "Untitled",
    children := some ["a", "missing", "b"] }

def itemA : Item := .mk "a" "document" ["Untitled", "A"] []

def itemB : Item := .mk "b" "document" ["Untitled", "B"] []

def itemR : Item := .mk "r" "folder" ["Untitled"] [itemA, itemB]

/-- C6: tree build fails with the invalid-id error exactly when the
requested root id is absent from the record index (a present id always
builds, whatever children are missing); a child id absent from the index
is skipped, the built children being exactly the listed children present
in the index in listed order (no sibling is dropped), and an error naming
the invalid id is recorded for the skipped child. -/
theorem build_item_tree_missing_ids :
    (∀ (files : List Record) (rfid rid : String) (fuel : Nat),
       rfid ∈ ids files → rid ∉ ids files →
       (build_item_tree files rfid rid (fuel + 1)).2 =
         .error ("Invalid item ID: " ++ rid)) ∧
    (∀ (fuel : Nat) (i : String) (table : List Record) (p : List String)
       (rid : String),
       isOkE (create_node (fuel + 1) i table p rid) = (lookupR table i).isSome) ∧
    (∀ (fuel : Nat) (i : String) (table : List Record) (p : List String)
       (rid : String) (e : Record) (item : Item) (errs : List String),
       lookupR table i = some e →
       create_node (fuel + 1 + 1) i table p rid = .ok (item, errs) →
       item.children.map Item.id =
         (e.children.getD []).filter fun c => (lookupR table c).isSome) ∧
    (∀ (fuel : Nat) (i : String) (table : List Record) (p : List String)
       (rid : String) (e : Record) (item : Item) (errs : List String),
       lookupR table i = some e →
       create_node (fuel + 1 + 1) i table p rid = .ok (item, errs) →
       ∀ c ∈ e.children.getD [], lookupR table c = none →
         ("Invalid item ID: " ++ rid) ∈ errs) := by
  refine ⟨?_, ?_, ?_, ?_⟩
  · intro files rfid rid fuel hmem habs
    obtain ⟨r0, hr0⟩ := Option.isSome_iff_exists.1 (lookupR_isSome.2 hmem)
    simp only [build_item_tree, hr0]
    have habs2 : rid ∉ ids (setRootTitle files rfid) := by
      rw [setRootTitle_ids]
      exact habs
    simp only [create_node, lookupR_eq_none.2 habs2]
  · intro fuel i table p rid
    exact create_node_isOk fuel i table p rid
  · intro fuel i table p rid e item errs hl h
    obtain ⟨e2, hl2, _, _, _, _, hch, _⟩ := create_node_ok_elim h
    rw [hl, Option.some_inj] at hl2
    subst hl2
    rw [hch]
    rw [build_children_map_id_filter _ fun c it er hw => create_node_ok_id hw]
    apply List.filter_congr
    intro c _
    exact create_node_isOk fuel c table (p ++ [e.title]) rid
  · intro fuel i table p rid e item errs hl h c hc hcnone
    obtain ⟨e2, hl2, _, _, _, _, _, herrs⟩ := create_node_ok_elim h
    rw [hl, Option.some_inj] at hl2
    subst hl2
    rw [herrs]
    have hcerr : create_node (fuel + 1) c table (p ++ [e.title]) rid =
        .error ("Invalid item ID: " ++ rid) := by
      simp only [create_node, hcnone]
    exact build_children_error_mem _ _ c _ hc hcerr

theorem build_item_tree_missing_ids_witness :
    (Item.children itemR).map Item.id =
      ((Record.children exRootRec).getD []).filter
        (fun c => (lookupR exFiles c).isSome) ∧
    ("Invalid item ID: " ++ "r") ∈ ["Invalid item ID: r"] :=
  ⟨build_item_tree_missing_ids.2.2.1 0 "r" exFiles [] "r" exRootRec itemR
      ["Invalid item ID: r"] rfl rfl,
   build_item_tree_missing_ids.2.2.2 0 "r" exFiles [] "r" exRootRec itemR
      ["Invalid item ID: r"] rfl rfl "missing" (by decide) rfl⟩

/-- C7: in every built tree, every item reachable in d child steps from the
built root has path length equal to the root path length plus d (path depth
equals distance), every child path is the parent path joined with the child
record title, every children list follows the listed order of the child ids
of its record (a sublist of it, missing ids skipped), and when the build is
rooted at the distinguished root file record its path is the forced slash
title regardless of the stored title. -/
theorem build_item_tree_path_invariants :
    (∀ (fuel : Nat) (i : String) (table : List Record) (p : List String)
       (rid : String) (item : Item) (errs : List String) (d : Nat) (it2 : Item),
       create_node fuel i table p rid = .ok (item, errs) →
       Descend item d it2 →
         it2.path.length = item.path.length + d ∧
         (∀ c ∈ it2.children, ∃ e, lookupR table c.id = some e ∧
            c.path = it2.path ++ [e.title]) ∧
         (∃ e, lookupR table it2.id = some e ∧
            (it2.children.map Item.id).Sublist (e.children.getD []))) ∧
    (∀ (files : List Record) (rfid : String) (fuel : Nat) (item : Item)
       (errs : List String),
       rfid ∈ ids files →
       (build_item_tree files rfid rfid (fuel + 1)).2 = .ok (item, errs) →
       item.path = ["/"]) := by
  constructor
  · intro fuel i table p rid item errs d it2 h hdes
    obtain ⟨⟨fuel2, i2, p2, errs2, hev⟩, hlen⟩ := descend_evidence hdes h
    refine ⟨hlen, ?_, ?_⟩
    · intro c hc
      cases fuel2 with
      | zero => simp [create_node] at hev
      | succ g =>
        obtain ⟨errs3, hw⟩ := create_node_child_evidence hev c hc
        obtain ⟨e, hl, hpath⟩ := create_node_ok_path hw
        exact ⟨e, hl, hpath⟩
    · cases fuel2 with
      | zero => simp [create_node] at hev
      | succ g =>
        obtain ⟨e, hl, hei, hid, _, _, hch, _⟩ := create_node_ok_elim hev
        refine ⟨e, ?_, ?_⟩
        · rw [hid, hei]
          exact hl
        · rw [hch]
          exact build_children_map_id_sublist _
            (fun c it er hw => create_node_ok_id hw) _
  · intro files rfid fuel item errs hmem h
    obtain ⟨r0, hr0⟩ := Option.isSome_iff_exists.1 (lookupR_isSome.2 hmem)
    simp only [build_item_tree, hr0] at h
    obtain ⟨e, hl, _, _, _, hpath, _⟩ := create_node_ok_elim h
    rw [setRootTitle_lookup files rfid r0 hr0, Option.some_inj] at hl
    rw [hpath, ← hl]
    rfl

theorem build_item_tree_path_invariants_witness :
    (Item.path itemA).length = (Item.path itemR).length + 1 :=
  (build_item_tree_path_invariants.1 2 "r" exFiles [] "r" itemR
    ["Invalid item ID: r"] 1 itemA rfl
    (Descend.step (List.Mem.head _) (Descend.refl itemA))).1

/-- C10: on every call whose root file id names a record of the input list,
`build_item_tree` overwrites in place the title of that record with the
slash inside the caller record list, even when the chosen build root is a
different or even an absent id, and leaves every other input record
unchanged. -/
theorem build_item_tree_retitles_input :
    ∀ (files : List Record) (rfid rid : String) (fuel : Nat),
      (ids files).Nodup → rfid ∈ ids files →
      (build_item_tree files rfid rid fuel).1 =
        files.map fun r => if r.id = rfid then { r with title := "/" } else r := by
  intro files rfid rid fuel hnodup hmem
  obtain ⟨r0, hr0⟩ := Option.isSome_iff_exists.1 (lookupR_isSome.2 hmem)
  simp only [build_item_tree, hr0]
  exact setRootTitle_map files rfid hnodup

theorem build_item_tree_retitles_input_witness :
    (build_item_tree exFiles "r" "zzz" 3).1 =
      exFiles.map fun r => if r.id = "r" then { r with title := "/" } else r :=
  build_item_tree_retitles_input exFiles "r" "zzz" 3 (by decide) (by decide)

end Dynalist
